import Mathlib

/-!
# Verification of the notary `keys` command (cmd/notary/keys.go)

Shallow embedding of the key-management CLI of the notary repository:
the trust / remove / generate commands, the certificate template builder
`newCertificate`, the signing-key enumerator `printAllPrivateKeys`, and
the confirmation boundary `askConfirm`.

External collaborators (the `caStore` trust store, `trustmanager`
certificate fetching/loading, `url.Parse`, `os.Stat`, key generation and
console input) are modelled as explicit parameters carrying their results,
so that the control flow of keys.go itself is embedded exactly.  Calls a
command performs on those collaborators are recorded in an event trace.

Go standard-library string and path functions used by keys.go
(`strings.TrimSuffix`, `strings.TrimPrefix`, `strings.EqualFold`,
`filepath.Ext`, `filepath.Base`, `filepath.Dir`, `filepath.Clean`,
`filepath.Match`) are embedded for the Unix path separator `'/'`.
-/

namespace Notary

/-! ## Go standard library: strings -/

/-- `strings.TrimSuffix(s, suffix)`: `s` without the provided trailing
`suffix` string; `s` unchanged if it does not end with `suffix`. -/
def trimSuffix (s suffix : String) : String :=
  if suffix.data.isSuffixOf s.data then
    ⟨s.data.take (s.data.length - suffix.data.length)⟩
  else s

/-- `strings.TrimPrefix(s, prefix)`: `s` without the provided leading
prefix string; `s` unchanged if it does not start with it. -/
def trimPrefix (s pre : String) : String :=
  if pre.data.isPrefixOf s.data then ⟨s.data.drop pre.data.length⟩ else s

/-- The acceptance test of `strings.EqualFold` for an ordered rune pair
`sr ≤ tr` that are not equal.  When `tr` is ASCII (so both runes are),
the runes must be an ASCII upper/lower-case pair.  Otherwise `tr` must
lie in the `unicode.SimpleFold` orbit of `sr`.  For an ASCII `sr` the
orbits are complete here: per `unicode.CaseOrbit`, the only ASCII
characters whose simple-fold orbit extends beyond the case pair are
`k`/`K` (with U+212A KELVIN SIGN, 8490) and `s`/`S` (with U+017F LATIN
SMALL LETTER LONG S, 383).  Since `sr` is the smaller rune of the pair,
`sr` is ASCII in every comparison made in keys.go, where one operand
always comes from the ASCII literals `"y"`/`"yes"`; fold orbits of
non-ASCII `sr` are not represented, and no comparison in this
development consults them. -/
def foldPairAccept (sr tr : Nat) : Bool :=
  if tr < 128 then
    65 ≤ sr && sr ≤ 90 && tr == sr + 32
  else
    ((sr == 75 || sr == 107) && tr == 8490)
      || ((sr == 83 || sr == 115) && tr == 383)

/-- One step of `strings.EqualFold`'s per-character comparison: equal
runes are fold-equal, otherwise Go orders the two runes and applies the
case-pair/fold-orbit acceptance to the ordered pair. -/
def charFoldEq (a b : Char) : Bool :=
  a == b
    || (if a.toNat ≤ b.toNat then foldPairAccept a.toNat b.toNat
        else foldPairAccept b.toNat a.toNat)

/-- `strings.EqualFold` on character lists: same length and pointwise
fold-equal characters. -/
def equalFoldList : List Char → List Char → Bool
  | [], [] => true
  | a :: s, b :: t => charFoldEq a b && equalFoldList s t
  | _, _ => false

/-- `strings.EqualFold(s, t)`: rune-wise Unicode simple-fold equality.
Exact whenever at each position one of the two runes is ASCII (then the
smaller rune `sr` is ASCII and `foldPairAccept` carries its complete
fold orbit) — in particular for every call in keys.go, whose second
operand is always `"y"` or `"yes"`. -/
def equalFold (s t : String) : Bool :=
  equalFoldList s.data t.data

/-! ## Go standard library: path/filepath (Unix separator) -/

/-- Helper for `filepath.Ext`: scan the reversed path; collect characters
until the first `'.'` (the extension starts there) or a `'/'` or the
beginning of the path (no extension). -/
def filepathExtAux : List Char → List Char → String
  | _, [] => ""
  | acc, c :: rest =>
    if c = '/' then ""
    else if c = '.' then ⟨c :: acc⟩
    else filepathExtAux (c :: acc) rest

/-- `filepath.Ext(path)`: the suffix beginning at the final dot in the
final slash-separated element of `path`; empty if there is no dot. -/
def filepathExt (p : String) : String :=
  filepathExtAux [] p.data.reverse

/-- Characters of a path with trailing `'/'` separators removed. -/
def stripTrailingSlashes (l : List Char) : List Char :=
  (l.reverse.dropWhile (· = '/')).reverse

/-- The final slash-separated element of a path (characters after the
last `'/'`). -/
def afterLastSlash (l : List Char) : List Char :=
  (l.reverse.takeWhile (· ≠ '/')).reverse

/-- The leading part of a path up to and including the last `'/'`
(empty if the path has no slash). -/
def upToLastSlash (l : List Char) : List Char :=
  (l.reverse.dropWhile (· ≠ '/')).reverse

/-- `filepath.Base(path)`: the last element of the path, after removing
trailing separators; `"."` for the empty path, `"/"` if the path is all
separators. -/
def filepathBase (p : String) : String :=
  if p = "" then "."
  else
    let q := stripTrailingSlashes p.data
    if q = [] then "/"
    else ⟨afterLastSlash q⟩

/-- The characters of a path split at every `'/'` (the list of its
slash-separated components; empty components for leading, trailing or
repeated separators, like Go's `strings.Split`). -/
def splitOnSlash : List Char → List (List Char)
  | [] => [[]]
  | c :: rest =>
    if c = '/' then [] :: splitOnSlash rest
    else
      match splitOnSlash rest with
      | [] => [[c]]
      | s :: ss => (c :: s) :: ss

/-- Components re-joined with a `'/'` between consecutive ones. -/
def joinSlash : List (List Char) → List Char
  | [] => []
  | [s] => s
  | s :: rest => s ++ '/' :: joinSlash rest

/-- Component processing of `filepath.Clean`: fold the slash-separated
components, dropping empty and `"."` components, and letting `".."` pop
the previous component (except that `".."` at the root is dropped, and
outside the root un-poppable `".."` components accumulate).  `acc` holds
the processed components in reverse. -/
def cleanComponents (rooted : Bool) : List (List Char) → List (List Char) → List (List Char)
  | acc, [] => acc.reverse
  | acc, c :: rest =>
    if c = [] ∨ c = ['.'] then cleanComponents rooted acc rest
    else if c = ['.', '.'] then
      match acc with
      | [] => if rooted then cleanComponents rooted [] rest
              else cleanComponents rooted [['.', '.']] rest
      | top :: acc' =>
        if top = ['.', '.'] then cleanComponents rooted (['.', '.'] :: acc) rest
        else cleanComponents rooted acc' rest
    else cleanComponents rooted (c :: acc) rest

/-- `filepath.Clean(path)` for the Unix separator: shortest equivalent
path, resolving `"."`, `".."` and repeated separators; `"."` for the
empty result. -/
def filepathClean (p : String) : String :=
  if p = "" then "."
  else
    let rooted : Bool := p.data.head? == some '/'
    let comps := cleanComponents rooted [] (splitOnSlash p.data)
    if rooted then ⟨'/' :: joinSlash comps⟩
    else if comps = [] then "."
    else ⟨joinSlash comps⟩

/-- `filepath.Dir(path)`: all but the last element of the path, i.e. the
part up to the final separator, passed through `filepath.Clean`. -/
def filepathDir (p : String) : String :=
  filepathClean ⟨upToLastSlash p.data⟩

/-- `filepath.Match("*.key", name)`: `'*'` matches any (possibly empty)
run of non-separator characters, so the pattern matches exactly when
`name` ends in `".key"` and the part matched by `'*'` contains no
separator.  (keys.go only ever calls `Match` with this fixed pattern;
the returned error is always nil for it.) -/
def matchStarKey (name : String) : Bool :=
  ".key".data.isSuffixOf name.data
    && !(name.data.take (name.data.length - 4)).contains '/'

/-- Go string slicing `s[0:1]` (used on the GUN in `keysGenerate`): the
first byte of `s` as a one-byte string, or `none` for the run-time panic
`slice bounds out of range` that Go raises when `len(s) < 1`.  (The
result is only compared against the ASCII strings `"/"` and `"\\"`, for
which the first byte and the first character agree.) -/
def goSlice01? (s : String) : Option String :=
  if s.data.length < 1 then none else some ⟨s.data.take 1⟩

/-- Go string slicing `s[1:]` (used on `filepath.Dir`'s result in
`printAllPrivateKeys`): everything after the first byte.  `Dir` never
returns an empty string, and in the layouts at hand its result begins
with the one-byte ASCII separator `'/'`, so dropping one byte and
dropping one character agree. -/
def goSlice1 (s : String) : String :=
  ⟨s.data.drop 1⟩

/-! ## Data model: X.509 certificate template (crypto/x509 fragment) -/

/-- `pkix.Name` fragment used by keys.go. -/
structure PkixName where
  organization : List String
  commonName : String
deriving DecidableEq, Repr

/-- `x509.KeyUsageDigitalSignature` (`1 << iota`, first). -/
def keyUsageDigitalSignature : Nat := 1

/-- `x509.KeyUsageKeyEncipherment` (`1 << iota`, third). -/
def keyUsageKeyEncipherment : Nat := 4

/-- `x509.ExtKeyUsageCodeSigning` (`iota` = 3). -/
def extKeyUsageCodeSigning : Nat := 3

/-- The fields of `x509.Certificate` that keys.go sets or reads.
Timestamps are Go `time.Time` instants measured in nanoseconds. -/
structure Certificate where
  serialNumber : Nat
  subject : PkixName
  notBefore : Int
  notAfter : Int
  keyUsage : Nat
  extKeyUsage : List Nat
  basicConstraintsValid : Bool
deriving DecidableEq, Repr

/-- `time.Hour` in nanoseconds (Go `time.Duration` is a nanosecond
count). -/
def timeHour : Int := 3600 * 1000000000

/-- `newCertificate(gun, organization)` from keys.go.  The two
nondeterministic inputs are passed explicitly: `now` is the `time.Now()`
instant and `serialNumber` the value produced by
`rand.Int(rand.Reader, 1 << 128)`, which by its contract lies in
`[0, 2^128)`. -/
def newCertificate (gun organization : String) (now : Int) (serialNumber : Nat) :
    Certificate :=
  { serialNumber := serialNumber
    subject := { organization := [organization], commonName := gun }
    notBefore := now
    notAfter := now + timeHour * 24 * 365 * 2
    keyUsage := keyUsageKeyEncipherment ||| keyUsageDigitalSignature
    extKeyUsage := [extKeyUsageCodeSigning]
    basicConstraintsValid := true }

/-! ## Command embeddings

Each cobra command handler is embedded as a pure function from its
arguments and the results its external collaborators would return to an
`Outcome` plus the trace of collaborator calls it performs, in order. -/

/-- Calls a command handler makes on its external collaborators. -/
inductive Event
  /-- `trustmanager.GetCertFromURL(loc)` -/
  | fetchURL (loc : String)
  /-- `os.Stat(loc)` -/
  | statFile (loc : String)
  /-- `trustmanager.LoadCertFromFile(loc)` -/
  | loadFile (loc : String)
  /-- `askConfirm()` returned `answer` -/
  | confirmAsked (answer : Bool)
  /-- `caStore.AddCert(cert)` -/
  | storeAddCert
  /-- `caStore.GetCertificateBykID(kID)` -/
  | storeGetByID (kID : String)
  /-- `caStore.RemoveCert(cert)` -/
  | storeRemoveCert
  /-- `generateKeyAndCert(gun)` -/
  | generateKeyAndCert (gun : String)
deriving DecidableEq, Repr

/-- How a handler run ends: normal return, `fatalf` with the given
format string and context, or a Go run-time panic. -/
inductive Outcome
  /-- the handler returned normally -/
  | success
  /-- `fatalf(msg, ...)`: print and exit non-zero -/
  | fatal (msg : String)
  /-- Go run-time panic -/
  | panicked (msg : String)
deriving DecidableEq, Repr

/-- `keysRemove(cmd, args)` from keys.go.  `getResult` is what
`caStore.GetCertificateBykID(args[0])` returns, `removeErr` the error of
`caStore.RemoveCert(cert)` (performed only when the lookup succeeded). -/
def keysRemove (args : List String) (getResult : Except String Certificate)
    (removeErr : Option String) : Outcome × List Event :=
  match args with
  | [] => (.fatal "must specify a SHA256 SubjectKeyID of the certificate", [])
  | kID :: _ =>
    match getResult with
    | .ok _ =>
      match removeErr with
      | some _ =>
        (.fatal "failed to remove certificate from KeyStore",
         [.storeGetByID kID, .storeRemoveCert])
      | none => (.success, [.storeGetByID kID, .storeRemoveCert])
    | .error _ =>
      (.fatal "certificate not found in any store", [.storeGetByID kID])

/-- Shared tail of `keysTrust`: once a certificate has been resolved,
ask for confirmation, abort on a negative answer, otherwise hand the
certificate to `caStore.AddCert` and surface its error. -/
def keysTrustAfterResolve (confirm : Bool) (addCertErr : Option String)
    (tr : List Event) : Outcome × List Event :=
  let tr := tr ++ [.confirmAsked confirm]
  if ¬confirm then (.fatal "aborting action.", tr)
  else
    let tr := tr ++ [.storeAddCert]
    match addCertErr with
    | some e => (.fatal ("error adding certificate from file: " ++ e), tr)
    | none => (.success, tr)

/-- The `else`/`else if` chain of `keysTrust` once the URL test
`err == nil && url.Scheme != ""` has failed: probe the filesystem with
`os.Stat`, load the certificate from the file when the entry exists,
otherwise reject the argument as neither URL nor file. -/
def keysTrustFileBranch (loc : String) (fileExists : Bool)
    (loadResult : Except String Certificate) (confirm : Bool)
    (addCertErr : Option String) : Outcome × List Event :=
  if fileExists then
    match loadResult with
    | .error e =>
      (.fatal ("error adding certificate from file: " ++ e),
       [.statFile loc, .loadFile loc])
    | .ok _ => keysTrustAfterResolve confirm addCertErr [.statFile loc, .loadFile loc]
  else
    (.fatal "please provide a file location or URL for CA certificate.",
     [.statFile loc])

/-- `keysTrust(cmd, args)` from keys.go.  `parsedScheme` is the result of
`url.Parse(args[0])` (`none` for a parse error, otherwise the parsed
`Scheme` field), `fetchResult` what `trustmanager.GetCertFromURL` would
return, `fileExists` whether `os.Stat(args[0])` succeeds, `loadResult`
what `trustmanager.LoadCertFromFile` would return, `confirm` the answer
of `askConfirm()`, and `addCertErr` the error of `caStore.AddCert`. -/
def keysTrust (args : List String) (parsedScheme : Option String)
    (fetchResult : Except String Certificate) (fileExists : Bool)
    (loadResult : Except String Certificate) (confirm : Bool)
    (addCertErr : Option String) : Outcome × List Event :=
  match args with
  | [] => (.fatal "please provide a URL or filename to a certificate", [])
  | loc :: _ =>
    match parsedScheme with
    | some scheme =>
      if scheme ≠ "" then
        match fetchResult with
        | .error e =>
          (.fatal ("error retrieving certificate from url (" ++ loc ++ "): " ++ e),
           [.fetchURL loc])
        | .ok _ => keysTrustAfterResolve confirm addCertErr [.fetchURL loc]
      else keysTrustFileBranch loc fileExists loadResult confirm addCertErr
    | none => keysTrustFileBranch loc fileExists loadResult confirm addCertErr

set_option linter.unusedVariables false in
/-- `keysGenerate(cmd, args)` from keys.go.  `genResult` is what
`generateKeyAndCert(gun)` would return (its key/cert pair collapsed to
the certificate, which is all keys.go uses), `addCertErr` the error of
`caStore.AddCert(cert)` — whose returned value keys.go discards, hence
the deliberately unused parameter. -/
def keysGenerate (args : List String) (genResult : Except String Certificate)
    (addCertErr : Option String) : Outcome × List Event :=
  match args with
  | [] => (.fatal "must specify a GUN", [])
  | gun :: _ =>
    match goSlice01? gun with
    | none => (.panicked "runtime error: slice bounds out of range", [])
    | some firstByte =>
      if firstByte = "/" ∨ firstByte = "\\" then
        (.fatal ("invalid Global Unique Name: " ++ gun), [])
      else
        match genResult with
        | .error e =>
          (.fatal ("could not generate key: " ++ e), [.generateKeyAndCert gun])
        | .ok _ =>
          -- the error of caStore.AddCert(cert) is dropped on the floor
          (.success, [.generateKeyAndCert gun, .storeAddCert])

/-! ## Signing-key enumerator -/

/-- The directory-entry information `printAllPrivateKeys` reads from its
`os.FileInfo` argument. -/
structure FileInfo where
  name : String
  isDir : Bool
deriving DecidableEq, Repr

/-- `printAllPrivateKeys(fp, fi, err)` from keys.go, the
`filepath.Walk` callback.  `privDir` is the configured
`viper.GetString("privDir")` root, `visitErr` whether the walk reported
an error for this entry.  Returns the `(gun, fingerprint)` record
printed for the entry (if any) and the error value handed back to the
walker (`none` = `nil`, so the walk continues). -/
def printAllPrivateKeys (privDir : String) (fp : String) (fi : FileInfo)
    (visitErr : Bool) : Option (String × String) × Option String :=
  if visitErr then (none, none)
  else if fi.isDir then (none, none)
  else if matchStarKey fi.name then
    let fp := trimSuffix fp (filepathExt fp)
    let fp := trimPrefix fp privDir
    let fingerprint := filepathBase fp
    -- gun := filepath.Dir(fp)[1:] ; Dir never returns "", so the Go
    -- byte slice [1:] is defined, and it drops the single leading
    -- (ASCII) separator character
    let gun := goSlice1 (filepathDir fp)
    (some (gun, fingerprint), none)
  else (none, none)

/-! ## Confirmation boundary -/

/-- `askConfirm()` from keys.go.  `input` is the token `fmt.Scanln`
read into `res` (`none` when `Scanln` returned an error, in which case
the handler returns `false` without looking at `res`). -/
def askConfirm (input : Option String) : Bool :=
  match input with
  | none => false
  | some res =>
    if equalFold res "y" || equalFold res "yes" then true else false

/-! ## Shared concrete data for the theorems -/

/-- A sample certificate, built by the embedded `newCertificate` for the
GUN used throughout the spec's examples. -/
def certA : Certificate := newCertificate "docker.io/library/alpine" "docker" 0 5

/-! ## Theorems -/

/-- A trace mutates the trust store only with prior consent: scanning
left to right, a `storeAddCert` call before any affirmative answer of
the confirmation boundary makes the trace unguarded (`false`); once an
affirmative `confirmAsked true` has occurred the trace is guarded. -/
def addCertGuarded : List Event → Bool
  | [] => true
  | e :: rest =>
    match e with
    | .storeAddCert => false
    | .confirmAsked true => true
    | _ => addCertGuarded rest

/-- **C1.** Key generation's GUN validation: `keysGenerate` rejects a GUN
beginning with a forward or backward slash with the invalid-GUN fatal
error, and does not reject `"docker.io/library/alpine"`; but on the
*empty* GUN it does not fail with the invalid-GUN error at all — the
slice expression `gun[0:1]` panics at run time, contradicting the spec's
`GenerateForGUN("") fails with InvalidGUN`. -/
theorem keysGenerate_gun_validation :
    keysGenerate [""] (.ok certA) none
      = (.panicked "runtime error: slice bounds out of range", [])
    ∧ keysGenerate ["/evil"] (.ok certA) none
      = (.fatal "invalid Global Unique Name: /evil", [])
    ∧ keysGenerate ["\\evil"] (.ok certA) none
      = (.fatal "invalid Global Unique Name: \\evil", [])
    ∧ keysGenerate ["docker.io/library/alpine"] (.ok certA) none
      = (.success, [.generateKeyAndCert "docker.io/library/alpine", .storeAddCert]) := by
  refine ⟨rfl, rfl, rfl, rfl⟩

/-- **C2.** The generate command drops the error of the trust store's
`Add`: with `caStore.AddCert` failing (here with `"permission denied"`),
`keysGenerate` still finishes with the success outcome, exactly as if the
`Add` had succeeded — the failure is silently swallowed, contradicting
the spec's "none are silently swallowed".  By contrast the trust command
does surface the same `AddCert` failure as a fatal error. -/
theorem keysGenerate_addCert_error_ignored :
    keysGenerate ["docker.io/library/alpine"] (.ok certA) (some "permission denied")
      = (.success, [.generateKeyAndCert "docker.io/library/alpine", .storeAddCert])
    ∧ keysGenerate ["docker.io/library/alpine"] (.ok certA) (some "permission denied")
      = keysGenerate ["docker.io/library/alpine"] (.ok certA) none
    ∧ keysTrust ["ca.pem"] none (.error "") true (.ok certA) true (some "permission denied")
      = (.fatal "error adding certificate from file: permission denied",
         [.statFile "ca.pem", .loadFile "ca.pem", .confirmAsked true, .storeAddCert]) := by
  refine ⟨rfl, rfl, rfl⟩

/-- Expansion of `foldPairAccept` into arithmetic propositions. -/
theorem foldPairAccept_iff (sr tr : Nat) :
    foldPairAccept sr tr = true ↔
      (tr < 128 ∧ 65 ≤ sr ∧ sr ≤ 90 ∧ tr = sr + 32)
      ∨ (128 ≤ tr ∧ ((sr = 75 ∨ sr = 107) ∧ tr = 8490
          ∨ (sr = 83 ∨ sr = 115) ∧ tr = 383)) := by
  unfold foldPairAccept
  split
  · rename_i h
    simp only [Bool.and_eq_true, decide_eq_true_eq, beq_iff_eq]
    omega
  · rename_i h
    simp only [Bool.or_eq_true, Bool.and_eq_true, decide_eq_true_eq, beq_iff_eq]
    omega

/-- Expansion of `charFoldEq` into the two ordered-pair cases. -/
theorem charFoldEq_iff (a b : Char) :
    charFoldEq a b = true ↔
      a = b
      ∨ a.toNat ≤ b.toNat ∧ foldPairAccept a.toNat b.toNat = true
      ∨ b.toNat < a.toNat ∧ foldPairAccept b.toNat a.toNat = true := by
  unfold charFoldEq
  simp only [Bool.or_eq_true, beq_iff_eq]
  by_cases hc : a.toNat ≤ b.toNat
  · rw [if_pos hc]
    constructor
    · rintro (h | h)
      · exact Or.inl h
      · exact Or.inr (Or.inl ⟨hc, h⟩)
    · rintro (h | ⟨_, h⟩ | ⟨h2, _⟩)
      · exact Or.inl h
      · exact Or.inr h
      · omega
  · rw [if_neg hc]
    constructor
    · rintro (h | h)
      · exact Or.inl h
      · exact Or.inr (Or.inr ⟨by omega, h⟩)
    · rintro (h | ⟨h2, _⟩ | ⟨_, h⟩)
      · exact Or.inl h
      · omega
      · exact Or.inr h

/-- A character equals a given one as soon as their codepoints agree. -/
theorem char_eq_of_toNat {c : Char} {n : Nat} {d : Char} (h : c.toNat = n)
    (hd : Char.ofNat n = d) : c = d := by
  have h2 := congrArg Char.ofNat h
  rw [Char.ofNat_toNat] at h2
  rw [h2, hd]

/-- The characters fold-equal to `'y'` are exactly `y` and `Y` (the
simple-fold orbit of `y` has no member outside ASCII). -/
theorem charFoldEq_y (c : Char) : charFoldEq c 'y' = true ↔ c = 'y' ∨ c = 'Y' := by
  constructor
  · intro h
    rw [charFoldEq_iff, show ('y' : Char).toNat = 121 from rfl] at h
    simp only [foldPairAccept_iff] at h
    rcases h with h | ⟨_, h⟩ | ⟨_, h⟩
    · exact Or.inl h
    · exact Or.inr (char_eq_of_toNat (n := 89) (by omega) (by decide))
    · exact absurd h (by omega)
  · rintro (rfl | rfl) <;> decide

/-- The characters fold-equal to `'e'` are exactly `e` and `E`. -/
theorem charFoldEq_e (c : Char) : charFoldEq c 'e' = true ↔ c = 'e' ∨ c = 'E' := by
  constructor
  · intro h
    rw [charFoldEq_iff, show ('e' : Char).toNat = 101 from rfl] at h
    simp only [foldPairAccept_iff] at h
    rcases h with h | ⟨_, h⟩ | ⟨_, h⟩
    · exact Or.inl h
    · exact Or.inr (char_eq_of_toNat (n := 69) (by omega) (by decide))
    · exact absurd h (by omega)
  · rintro (rfl | rfl) <;> decide

/-- The characters fold-equal to `'s'` are exactly `s`, `S` and — per
the `unicode.CaseOrbit` fold orbit of `s` — U+017F LATIN SMALL LETTER
LONG S `ſ`, which Go's `EqualFold` accepts for `s`. -/
theorem charFoldEq_s (c : Char) :
    charFoldEq c 's' = true ↔ c = 's' ∨ c = 'S' ∨ c = 'ſ' := by
  constructor
  · intro h
    rw [charFoldEq_iff, show ('s' : Char).toNat = 115 from rfl] at h
    simp only [foldPairAccept_iff] at h
    rcases h with h | ⟨_, h⟩ | ⟨_, h⟩
    · exact Or.inl h
    · exact Or.inr (Or.inl (char_eq_of_toNat (n := 83) (by omega) (by decide)))
    · exact Or.inr (Or.inr (char_eq_of_toNat (n := 383) (by omega) (by decide)))
  · rintro (rfl | rfl | rfl) <;> decide

/-- The tokens fold-equal to `"y"` are exactly `y` and `Y`. -/
theorem equalFoldList_y (s : List Char) :
    equalFoldList s ['y'] = true ↔ s = ['y'] ∨ s = ['Y'] := by
  match s with
  | [] => simp [equalFoldList]
  | [a] =>
    simp only [equalFoldList, Bool.and_true, List.cons.injEq, and_true]
    exact charFoldEq_y a
  | a :: b :: t => simp [equalFoldList]

/-- The tokens fold-equal to `"yes"` are exactly the per-letter variants
of `yes` with `y`/`Y`, `e`/`E` and `s`/`S`/`ſ` in the three positions. -/
theorem equalFoldList_yes (s : List Char) :
    equalFoldList s ['y', 'e', 's'] = true ↔
      s ∈ [['y', 'e', 's'], ['y', 'e', 'S'], ['y', 'e', 'ſ'],
           ['y', 'E', 's'], ['y', 'E', 'S'], ['y', 'E', 'ſ'],
           ['Y', 'e', 's'], ['Y', 'e', 'S'], ['Y', 'e', 'ſ'],
           ['Y', 'E', 's'], ['Y', 'E', 'S'], ['Y', 'E', 'ſ']] := by
  match s with
  | [] => simp [equalFoldList]
  | [a] => simp [equalFoldList]
  | [a, b] => simp [equalFoldList]
  | [a, b, c] =>
    simp only [equalFoldList, Bool.and_true, Bool.and_eq_true]
    rw [charFoldEq_y a, charFoldEq_e b, charFoldEq_s c]
    simp only [List.mem_cons, List.cons.injEq, List.mem_singleton, and_true,
      List.not_mem_nil, or_false]
    constructor
    · rintro ⟨rfl | rfl, rfl | rfl, rfl | rfl | rfl⟩ <;> simp
    · intro h
      rcases h with h | h | h | h | h | h | h | h | h | h | h | h <;>
        (obtain ⟨rfl, rfl, rfl⟩ := h; simp)
  | a :: b :: c :: d :: t => simp [equalFoldList]

/-- **C8.** The confirmation boundary `askConfirm` answers `true` for
exactly the tokens equal to `y` or `yes` under `strings.EqualFold`'s
case-insensitive (Unicode simple-fold) comparison — `y`, `Y` and the
twelve per-letter variants of `yes` over `y`/`Y`, `e`/`E`, `s`/`S`/`ſ`
(U+017F folds to `s`) — and `false` for every other token and for a
failed read (`none`). -/
theorem askConfirm_yes_only (input : Option String) :
    askConfirm input = true ↔
      input ∈ [some "y", some "Y",
               some "yes", some "yeS", some "yeſ", some "yEs", some "yES", some "yEſ",
               some "Yes", some "YeS", some "Yeſ", some "YEs", some "YES", some "YEſ"] := by
  cases input with
  | none => simp [askConfirm]
  | some s =>
    have hy := equalFoldList_y s.data
    have hyes := equalFoldList_yes s.data
    simp only [askConfirm, equalFold]
    rw [show ∀ (b : Bool), (if b = true then true else false) = b from
      fun b => by cases b <;> rfl]
    simp only [Bool.or_eq_true]
    rw [hy, hyes]
    simp only [List.mem_cons, List.not_mem_nil, or_false, List.cons.injEq,
      List.mem_singleton, Option.some.injEq, String.ext_iff]
    constructor
    · rintro ((h | h) | h | h | h | h | h | h | h | h | h | h | h | h) <;> simp [h]
    · rintro (h | h | h | h | h | h | h | h | h | h | h | h | h | h) <;> simp [h]

/-- **C8 witness.** The characterization at concrete tokens: the
uppercase token `YES` is affirmative. -/
theorem askConfirm_yes_only_witness : askConfirm (some "YES") = true :=
  (askConfirm_yes_only (some "YES")).mpr (by decide)

/-- **C3 counterexample.** A successful run of the generate command
invokes the trust store's `AddCert` without the confirmation boundary
ever being consulted: the trace contains `storeAddCert` but no
`confirmAsked` event at all, so `AddCert` is *not* invoked "only after
the yes/no confirmation boundary has returned affirmative". -/
theorem keysGenerate_addCert_without_confirmation :
    (keysGenerate ["docker.io/library/alpine"] (.ok certA) none).1 = .success
    ∧ Event.storeAddCert ∈ (keysGenerate ["docker.io/library/alpine"] (.ok certA) none).2
    ∧ Event.confirmAsked true ∉ (keysGenerate ["docker.io/library/alpine"] (.ok certA) none).2
    ∧ Event.confirmAsked false ∉ (keysGenerate ["docker.io/library/alpine"] (.ok certA) none).2
    ∧ addCertGuarded (keysGenerate ["docker.io/library/alpine"] (.ok certA) none).2 = false := by
  decide

/-- **C3 (amended).** For the trust command the claim holds: in every
run of `keysTrust`, `AddCert` is invoked only after the confirmation
boundary returned affirmative, and on a negative answer the run aborts
with the `aborting action.` fatal error without the store ever being
mutated.  (The generate command, by contrast, adds without asking —
see the counterexample.) -/
theorem keysTrust_confirm_guards_addCert (loc : String) (ps : Option String)
    (fr lr : Except String Certificate) (fe : Bool) (confirm : Bool) (ae : Option String) :
    addCertGuarded (keysTrust [loc] ps fr fe lr confirm ae).2 = true
    ∧ (confirm = false →
        Event.storeAddCert ∉ (keysTrust [loc] ps fr fe lr confirm ae).2
        ∧ (Event.confirmAsked false ∈ (keysTrust [loc] ps fr fe lr confirm ae).2 →
            (keysTrust [loc] ps fr fe lr confirm ae).1 = .fatal "aborting action.")) := by
  have hfile : ∀ (fe : Bool) (lr : Except String Certificate) (confirm : Bool)
      (ae : Option String),
      addCertGuarded (keysTrustFileBranch loc fe lr confirm ae).2 = true
      ∧ (confirm = false →
          Event.storeAddCert ∉ (keysTrustFileBranch loc fe lr confirm ae).2
          ∧ (Event.confirmAsked false ∈ (keysTrustFileBranch loc fe lr confirm ae).2 →
              (keysTrustFileBranch loc fe lr confirm ae).1 = .fatal "aborting action.")) := by
    intro fe lr confirm ae
    rcases lr with e | c <;> cases fe <;> cases confirm <;> rcases ae with _ | a <;>
      simp [keysTrustFileBranch, keysTrustAfterResolve, addCertGuarded]
  rcases ps with _ | scheme
  · simpa [keysTrust] using hfile fe lr confirm ae
  · by_cases hs : scheme = ""
    · simpa [keysTrust, hs] using hfile fe lr confirm ae
    · rcases fr with e | c <;> cases confirm <;> rcases ae with _ | a <;>
        simp [keysTrust, hs, keysTrustAfterResolve, addCertGuarded]

/-- **C3 witness.** The amended theorem at a concrete negative run of
the trust command: the file-loaded certificate is not added and the run
aborts. -/
theorem keysTrust_confirm_guards_addCert_witness :
    addCertGuarded (keysTrust ["ca.pem"] none (.error "") true (.ok certA) false none).2 = true
    ∧ Event.storeAddCert ∉ (keysTrust ["ca.pem"] none (.error "") true (.ok certA) false none).2
    ∧ (keysTrust ["ca.pem"] none (.error "") true (.ok certA) false none).1
        = .fatal "aborting action." := by
  have h := keysTrust_confirm_guards_addCert "ca.pem" none (.error "") (.ok certA) true false none
  exact ⟨h.1, (h.2 rfl).1, (h.2 rfl).2 (by decide)⟩

/-- **C5.** Resolver precedence in the trust command: an argument whose
URL parse succeeded with a non-empty scheme is fetched from that URL and
is never probed or loaded as a file, whatever the filesystem contains; a
filesystem probe (`os.Stat`) happens only when the parse failed or the
scheme was empty; and when the argument is neither (no scheme, no such
file) the command fails with the invalid-source fatal error. -/
theorem keysTrust_resolver_precedence (loc scheme : String) (ps : Option String)
    (fr lr : Except String Certificate) (fe : Bool) (confirm : Bool) (ae : Option String) :
    (scheme ≠ "" →
      Event.fetchURL loc ∈ (keysTrust [loc] (some scheme) fr fe lr confirm ae).2
      ∧ (∀ l, Event.statFile l ∉ (keysTrust [loc] (some scheme) fr fe lr confirm ae).2)
      ∧ (∀ l, Event.loadFile l ∉ (keysTrust [loc] (some scheme) fr fe lr confirm ae).2))
    ∧ ((∃ l, Event.statFile l ∈ (keysTrust [loc] ps fr fe lr confirm ae).2) →
        ps = none ∨ ps = some "")
    ∧ ((ps = none ∨ ps = some "") → fe = false →
        keysTrust [loc] ps fr fe lr confirm ae
          = (.fatal "please provide a file location or URL for CA certificate.",
             [.statFile loc])) := by
  refine ⟨?_, ?_, ?_⟩
  · intro hs
    rcases fr with e | c <;> cases confirm <;> rcases ae with _ | a <;>
      simp [keysTrust, hs, keysTrustAfterResolve]
  · intro ⟨l, hl⟩
    rcases ps with _ | scheme'
    · exact Or.inl rfl
    · by_cases hs' : scheme' = ""
      · exact Or.inr (by rw [hs'])
      · exfalso
        rcases fr with e | c <;> cases confirm <;> rcases ae with _ | a <;>
          simp [keysTrust, hs', keysTrustAfterResolve] at hl
  · rintro (rfl | rfl) rfl
    · simp [keysTrust, keysTrustFileBranch]
    · simp [keysTrust, keysTrustFileBranch]

/-- **C5 witness.** The precedence theorem at the spec's example: for
`"https://example.com/ca.pem"` (scheme `https`) the certificate is
fetched from the URL and no filesystem probe occurs, even though
`os.Stat` would report the file as existing (`fe = true`). -/
theorem keysTrust_resolver_precedence_witness :
    Event.fetchURL "https://example.com/ca.pem"
      ∈ (keysTrust ["https://example.com/ca.pem"] (some "https") (.ok certA) true
          (.ok certA) true none).2
    ∧ (∀ l, Event.statFile l
        ∉ (keysTrust ["https://example.com/ca.pem"] (some "https") (.ok certA) true
            (.ok certA) true none).2) :=
  let h := keysTrust_resolver_precedence "https://example.com/ca.pem" "https"
    (some "https") (.ok certA) (.ok certA) true true none
  ⟨(h.1 (by decide)).1, (h.1 (by decide)).2.1⟩

/-- **C9.** The signing-key walk callback never aborts the walk (it
always hands `nil` back to `filepath.Walk`), and it produces no record
for an entry that errored during traversal, for a directory, or for a
file whose name does not match the `*.key` pattern. -/
theorem printAllPrivateKeys_skips (privDir fp : String) (fi : FileInfo) (visitErr : Bool) :
    (printAllPrivateKeys privDir fp fi visitErr).2 = none
    ∧ (visitErr = true ∨ fi.isDir = true ∨ matchStarKey fi.name = false →
        printAllPrivateKeys privDir fp fi visitErr = (none, none)) := by
  unfold printAllPrivateKeys
  constructor
  · split
    · rfl
    · split
      · rfl
      · split <;> rfl
  · rintro (rfl | h | h)
    · rfl
    · simp [h]
    · simp [h]

/-- **C9 witness.** The skip theorem at a concrete non-matching file:
a `.pem` file in the tree produces no record and the walk continues. -/
theorem printAllPrivateKeys_skips_witness :
    printAllPrivateKeys "root" "root/ca.pem" ⟨"ca.pem", false⟩ false = (none, none) :=
  (printAllPrivateKeys_skips "root" "root/ca.pem" ⟨"ca.pem", false⟩ false).2
    (Or.inr (Or.inr (by decide)))

/-- **C6.** The removal command resolves the certificate by Subject Key
ID first and only then removes it; a failed lookup yields the
not-found fatal error without ever invoking `RemoveCert`, a failed
removal after a successful lookup yields a different fatal error, and
the two caller-visible messages are distinct. -/
theorem keysRemove_error_taxonomy (kID e e' : String) (c : Certificate) :
    keysRemove [kID] (.error e) none
      = (.fatal "certificate not found in any store", [.storeGetByID kID])
    ∧ keysRemove [kID] (.error e) (some e')
      = (.fatal "certificate not found in any store", [.storeGetByID kID])
    ∧ keysRemove [kID] (.ok c) (some e')
      = (.fatal "failed to remove certificate from KeyStore",
         [.storeGetByID kID, .storeRemoveCert])
    ∧ keysRemove [kID] (.ok c) none
      = (.success, [.storeGetByID kID, .storeRemoveCert])
    ∧ ("certificate not found in any store" : String)
        ≠ "failed to remove certificate from KeyStore" := by
  refine ⟨rfl, rfl, rfl, rfl, by decide⟩

/-- **C6 witness.** The taxonomy theorem at concrete inputs: a failed
lookup and a failed removal produce their two distinct fatal errors. -/
theorem keysRemove_error_taxonomy_witness :
    keysRemove ["abc123"] (.error "nf") none
      = (.fatal "certificate not found in any store", [.storeGetByID "abc123"])
    ∧ keysRemove ["abc123"] (.ok certA) (some "permission denied")
      = (.fatal "failed to remove certificate from KeyStore",
         [.storeGetByID "abc123", .storeRemoveCert]) :=
  ⟨(keysRemove_error_taxonomy "abc123" "nf" "permission denied" certA).1,
   (keysRemove_error_taxonomy "abc123" "nf" "permission denied" certA).2.2.1⟩

/-- **C7.** The certificate template built by `newCertificate`: subject
common name is the GUN, organization the single supplied string, validity
window exactly 730 days, key usage exactly key encipherment plus digital
signature, extended key usage exactly code signing, basic constraints
valid, and the serial number (which `rand.Int(rand.Reader, 1 << 128)`
guarantees to be below `2^128`) in `[0, 2^128)`. -/
theorem newCertificate_fields (gun organization : String) (now : Int)
    (serial : Nat) (hserial : serial < 2 ^ 128) :
    (newCertificate gun organization now serial).subject.commonName = gun
    ∧ (newCertificate gun organization now serial).subject.organization = [organization]
    ∧ (newCertificate gun organization now serial).notAfter
        - (newCertificate gun organization now serial).notBefore = 730 * (24 * timeHour)
    ∧ (newCertificate gun organization now serial).keyUsage
        = (keyUsageKeyEncipherment ||| keyUsageDigitalSignature)
    ∧ (newCertificate gun organization now serial).extKeyUsage = [extKeyUsageCodeSigning]
    ∧ (newCertificate gun organization now serial).basicConstraintsValid = true
    ∧ (newCertificate gun organization now serial).serialNumber < 2 ^ 128 := by
  refine ⟨rfl, rfl, ?_, rfl, rfl, rfl, hserial⟩
  simp only [newCertificate, timeHour]
  ring

/-- **C7 witness.** The field theorem instantiated at the spec's example
GUN with serial number 5. -/
theorem newCertificate_fields_witness :
    (newCertificate "docker.io/library/alpine" "docker" 0 5).subject.commonName
        = "docker.io/library/alpine"
    ∧ (newCertificate "docker.io/library/alpine" "docker" 0 5).subject.organization
        = ["docker"]
    ∧ (newCertificate "docker.io/library/alpine" "docker" 0 5).notAfter
        - (newCertificate "docker.io/library/alpine" "docker" 0 5).notBefore
        = 730 * (24 * timeHour)
    ∧ (newCertificate "docker.io/library/alpine" "docker" 0 5).keyUsage
        = (keyUsageKeyEncipherment ||| keyUsageDigitalSignature)
    ∧ (newCertificate "docker.io/library/alpine" "docker" 0 5).extKeyUsage
        = [extKeyUsageCodeSigning]
    ∧ (newCertificate "docker.io/library/alpine" "docker" 0 5).basicConstraintsValid = true
    ∧ (newCertificate "docker.io/library/alpine" "docker" 0 5).serialNumber < 2 ^ 128 :=
  newCertificate_fields "docker.io/library/alpine" "docker" 0 5 (by norm_num)

/-! ### Path-decomposition lemmas for the signing-key enumerator

The canonical private-key layout is `<privDir>/<gun-dir>/<fingerprint>.key`.
The lemmas below compute `filepath.Ext`, `strings.TrimSuffix`/`TrimPrefix`,
`filepath.Base` and `filepath.Dir` on paths of that shape. -/

theorem takeWhile_ne_slash_append {a b : List Char} (h : '/' ∉ a) :
    (a ++ '/' :: b).takeWhile (· ≠ '/') = a := by
  induction a with
  | nil => simp
  | cons c m ih =>
    have hc : c ≠ '/' := fun hc => h (hc ▸ List.mem_cons_self c m)
    have hm : '/' ∉ m := fun hm => h (List.mem_cons_of_mem c hm)
    simpa [List.takeWhile_cons, hc] using ih hm

theorem dropWhile_ne_slash_append {a b : List Char} (h : '/' ∉ a) :
    (a ++ '/' :: b).dropWhile (· ≠ '/') = '/' :: b := by
  induction a with
  | nil => simp
  | cons c m ih =>
    have hc : c ≠ '/' := fun hc => h (hc ▸ List.mem_cons_self c m)
    have hm : '/' ∉ m := fun hm => h (List.mem_cons_of_mem c hm)
    simpa [List.dropWhile_cons, hc] using ih hm

theorem dropWhile_eq_slash_cons {c : Char} {m : List Char} (h : c ≠ '/') :
    (c :: m).dropWhile (· = '/') = c :: m := by
  simp [List.dropWhile, h]

/-- A list whose reversal starts with a non-separator character (i.e.
whose last character is not `'/'`) is unchanged by trailing-slash
stripping. -/
theorem stripTrailingSlashes_of_last_ne {l : List Char}
    (h : ∃ c m, l.reverse = c :: m ∧ c ≠ '/') :
    stripTrailingSlashes l = l := by
  obtain ⟨c, m, hcm, hc⟩ := h
  unfold stripTrailingSlashes
  rw [hcm, dropWhile_eq_slash_cons hc, ← hcm, List.reverse_reverse]

theorem afterLastSlash_append {a n : List Char} (hns : '/' ∉ n) :
    afterLastSlash (a ++ '/' :: n) = n := by
  unfold afterLastSlash
  rw [List.reverse_append, show ('/' :: n).reverse = n.reverse ++ ['/'] from by simp,
    List.append_assoc]
  rw [show ['/'] ++ a.reverse = '/' :: a.reverse from rfl]
  rw [takeWhile_ne_slash_append (by simpa using hns), List.reverse_reverse]

theorem upToLastSlash_append {a n : List Char} (hns : '/' ∉ n) :
    upToLastSlash (a ++ '/' :: n) = a ++ ['/'] := by
  unfold upToLastSlash
  rw [List.reverse_append, show ('/' :: n).reverse = n.reverse ++ ['/'] from by simp,
    List.append_assoc]
  rw [show ['/'] ++ a.reverse = '/' :: a.reverse from rfl]
  rw [dropWhile_ne_slash_append (by simpa using hns)]
  simp

/-- The extension of a path ending in `".key"` is `".key"`: the final
dot of the final element is the one introducing `key`. -/
theorem filepathExt_key {l : List Char} :
    filepathExt ⟨l ++ ['.', 'k', 'e', 'y']⟩ = ".key" := by
  unfold filepathExt
  rw [show (⟨l ++ ['.', 'k', 'e', 'y']⟩ : String).data = l ++ ['.', 'k', 'e', 'y'] from
    rfl]
  rw [List.reverse_append,
    show (['.', 'k', 'e', 'y'] : List Char).reverse = ['y', 'e', 'k', '.'] from rfl]
  rfl

theorem trimSuffix_key {l : List Char} :
    trimSuffix ⟨l ++ ['.', 'k', 'e', 'y']⟩ ".key" = ⟨l⟩ := by
  unfold trimSuffix
  rw [if_pos (List.isSuffixOf_iff_suffix.mpr (List.suffix_append l _))]
  have hlen : (l ++ ['.', 'k', 'e', 'y']).length - (".key".data).length = l.length := by
    simp [List.length_append]
  rw [show (⟨l ++ ['.', 'k', 'e', 'y']⟩ : String).data = l ++ ['.', 'k', 'e', 'y'] from
    rfl, hlen, List.take_left' rfl]

theorem trimPrefix_data_append (p : String) (m : List Char) :
    trimPrefix ⟨p.data ++ m⟩ p = ⟨m⟩ := by
  unfold trimPrefix
  rw [if_pos (List.isPrefixOf_iff_prefix.mpr (List.prefix_append p.data m))]
  rw [show (⟨p.data ++ m⟩ : String).data = p.data ++ m from rfl,
    List.drop_left p.data m]

theorem filepathBase_append {a n : List Char} (hn : n ≠ []) (hns : '/' ∉ n) :
    filepathBase ⟨a ++ '/' :: n⟩ = ⟨n⟩ := by
  obtain ⟨c, m, hcm⟩ : ∃ c m, n.reverse = c :: m := by
    cases hrev : n.reverse with
    | nil => exact absurd (by simpa using congrArg List.reverse hrev) hn
    | cons c m => exact ⟨c, m, rfl⟩
  have hc : c ≠ '/' := by
    have : c ∈ n.reverse := hcm ▸ List.mem_cons_self c m
    rw [List.mem_reverse] at this
    exact fun h => hns (h ▸ this)
  have hlast : ∃ c' m', (a ++ '/' :: n).reverse = c' :: m' ∧ c' ≠ '/' := by
    refine ⟨c, m ++ '/' :: a.reverse, ?_, hc⟩
    rw [List.reverse_append, show ('/' :: n).reverse = n.reverse ++ ['/'] from by simp,
      hcm, List.append_assoc]
    rfl
  unfold filepathBase
  rw [if_neg (by simp [String.ext_iff])]
  simp only [show (⟨a ++ '/' :: n⟩ : String).data = a ++ '/' :: n from rfl]
  rw [stripTrailingSlashes_of_last_ne hlast]
  rw [if_neg (by simp)]
  rw [afterLastSlash_append hns]

theorem filepathDir_append {a n : List Char} (hns : '/' ∉ n) :
    filepathDir ⟨a ++ '/' :: n⟩ = filepathClean ⟨a ++ ['/']⟩ := by
  unfold filepathDir
  rw [show (⟨a ++ '/' :: n⟩ : String).data = a ++ '/' :: n from rfl,
    upToLastSlash_append hns]

theorem splitOnSlash_no_slash {a : List Char} (h : '/' ∉ a) :
    splitOnSlash a = [a] := by
  induction a with
  | nil => rfl
  | cons c m ih =>
    have hc : c ≠ '/' := fun hc => h (hc ▸ List.mem_cons_self c m)
    have hm : '/' ∉ m := fun hm => h (List.mem_cons_of_mem c hm)
    simp [splitOnSlash, hc, ih hm]

theorem splitOnSlash_append {a b : List Char} (h : '/' ∉ a) :
    splitOnSlash (a ++ '/' :: b) = a :: splitOnSlash b := by
  induction a with
  | nil => simp [splitOnSlash]
  | cons c m ih =>
    have hc : c ≠ '/' := fun hc => h (hc ▸ List.mem_cons_self c m)
    have hm : '/' ∉ m := fun hm => h (List.mem_cons_of_mem c hm)
    simp [splitOnSlash, hc, ih hm]

theorem filepathClean_single_slash : filepathClean ⟨['/']⟩ = "/" := by decide

/-- `splitOnSlash` recovers the components of a joined component list
followed by a separator and a remainder. -/
theorem splitOnSlash_join_append {b : List Char} :
    ∀ {comps : List (List Char)}, comps ≠ [] → (∀ c ∈ comps, '/' ∉ c) →
      splitOnSlash (joinSlash comps ++ '/' :: b) = comps ++ splitOnSlash b := by
  intro comps
  induction comps with
  | nil => intro h _; exact absurd rfl h
  | cons c rest ih =>
    intro _ hplain
    have hc : '/' ∉ c := hplain c (List.mem_cons_self _ _)
    rcases rest with _ | ⟨c2, rest2⟩
    · rw [show joinSlash [c] = c from rfl, splitOnSlash_append hc]
      rfl
    · have hrest : ∀ x ∈ c2 :: rest2, '/' ∉ x := fun x hx =>
        hplain x (List.mem_cons_of_mem _ hx)
      rw [show joinSlash (c :: c2 :: rest2) = c ++ '/' :: joinSlash (c2 :: rest2) from
        rfl]
      rw [List.append_assoc, List.cons_append, splitOnSlash_append hc,
        ih (by simp) hrest]
      rfl

/-- Plain components (non-empty, neither `"."` nor `".."`) are pushed
unchanged by `cleanComponents`, and a final empty component (from a
trailing separator) is dropped. -/
theorem cleanComponents_plain :
    ∀ (cs : List (List Char)) (acc : List (List Char)),
      (∀ c ∈ cs, c ≠ [] ∧ c ≠ ['.'] ∧ c ≠ ['.', '.']) →
      cleanComponents true acc (cs ++ [[]]) = acc.reverse ++ cs := by
  intro cs
  induction cs with
  | nil => intro acc _; simp [cleanComponents]
  | cons c rest ih =>
    intro acc hplain
    obtain ⟨h1, h2, h3⟩ := hplain c (List.mem_cons_self _ _)
    have hrest : ∀ x ∈ rest, x ≠ [] ∧ x ≠ ['.'] ∧ x ≠ ['.', '.'] := fun x hx =>
      hplain x (List.mem_cons_of_mem _ hx)
    simp only [List.cons_append, cleanComponents, List.append_eq]
    rw [if_neg (by push_neg; exact ⟨h1, h2⟩), if_neg h3, ih (c :: acc) hrest]
    simp

/-- `Clean("/<dir-path>/") = "/<dir-path>"` for a parent path made of
plain directory components (the only shape `filepath.Walk` produces:
actual directory names are non-empty, are never `.` or `..`, and
contain no separator). -/
theorem filepathClean_rooted_dir {comps : List (List Char)} (hne : comps ≠ [])
    (hplain : ∀ c ∈ comps, c ≠ [] ∧ c ≠ ['.'] ∧ c ≠ ['.', '.'] ∧ '/' ∉ c) :
    filepathClean ⟨'/' :: (joinSlash comps ++ ['/'])⟩ = ⟨'/' :: joinSlash comps⟩ := by
  unfold filepathClean
  rw [if_neg (by simp [String.ext_iff])]
  show (⟨'/' :: joinSlash (cleanComponents true []
      (splitOnSlash ('/' :: (joinSlash comps ++ ['/']))))⟩ : String)
    = ⟨'/' :: joinSlash comps⟩
  rw [show splitOnSlash ('/' :: (joinSlash comps ++ ['/']))
      = [] :: splitOnSlash (joinSlash comps ++ ['/']) from rfl]
  rw [show (joinSlash comps ++ ['/'] : List Char)
      = joinSlash comps ++ '/' :: [] from rfl]
  rw [splitOnSlash_join_append hne (fun c hc => (hplain c hc).2.2.2)]
  rw [show splitOnSlash ([] : List Char) = [[]] from rfl]
  rw [show cleanComponents true [] ([] :: (comps ++ [[]]))
      = cleanComponents true [] (comps ++ [[]]) from rfl]
  rw [cleanComponents_plain comps []
    (fun c hc => ⟨(hplain c hc).1, (hplain c hc).2.1, (hplain c hc).2.2.1⟩)]
  rfl

/-- On an errorless visit of a non-directory file whose name matches
`*.key`, `printAllPrivateKeys` emits the record computed by the
trim/`Base`/`Dir` chain of keys.go and continues the walk. -/
theorem printAllPrivateKeys_match (privDir fp name : String)
    (hm : matchStarKey name = true) :
    printAllPrivateKeys privDir fp ⟨name, false⟩ false
      = (some (goSlice1 (filepathDir (trimPrefix (trimSuffix fp (filepathExt fp)) privDir)),
          filepathBase (trimPrefix (trimSuffix fp (filepathExt fp)) privDir)), none) := by
  unfold printAllPrivateKeys
  rw [if_neg (by simp), if_neg (by simp), if_pos hm]

/-- **C4 counterexample.** Two concrete trees falsify the claim's record
rule.  On the spec's example `root/docker.io%2Flibrary%2Falpine/abc123.key`
the enumerator reports the GUN exactly as the directory is named —
`docker.io%2Flibrary%2Falpine`, the `%2F` escapes left undecoded — not
the promised `docker.io/library/alpine`.  And for the matching file
named bare `.key` (empty stem) at `root/dir/.key`, the reported
fingerprint is `dir`, not the basename-minus-extension `""`. -/
theorem signingKey_gun_not_percent_decoded :
    printAllPrivateKeys "root" "root/docker.io%2Flibrary%2Falpine/abc123.key"
        ⟨"abc123.key", false⟩ false
      = (some ("docker.io%2Flibrary%2Falpine", "abc123"), none)
    ∧ ("docker.io%2Flibrary%2Falpine" : String) ≠ "docker.io/library/alpine"
    ∧ printAllPrivateKeys "root" "root/dir/.key" ⟨".key", false⟩ false
        = (some ("dir", "dir"), none)
    ∧ matchStarKey ".key" = true
    ∧ trimSuffix ".key" (filepathExt ".key") = ""
    ∧ ("dir" : String) ≠ "" :=
  ⟨rfl, by decide, rfl, by decide, by decide, by decide⟩

/-- **C4 (amended).** For every key file visited in the canonical
layout `<privDir>/<parent-path>/<name>` — the parent path any non-empty
chain of actual directory names (each non-empty, not `.` or `..`,
separator-free, as `filepath.Walk` always supplies), the file name
slash-free, matching `*.key`, with a non-empty stem — the enumerator
reports as fingerprint the file's basename minus its extension and as
GUN the literal parent directory path relative to the root minus the
leading separator, with no percent-decoding. -/
theorem printAllPrivateKeys_record (privDir : String) (comps : List (List Char))
    (name : String) (hcne : comps ≠ [])
    (hplain : ∀ c ∈ comps, c ≠ [] ∧ c ≠ ['.'] ∧ c ≠ ['.', '.'] ∧ '/' ∉ c)
    (hns : '/' ∉ name.data) (hm : matchStarKey name = true)
    (hnm : trimSuffix name (filepathExt name) ≠ "") :
    printAllPrivateKeys privDir
        (privDir ++ "/" ++ ⟨joinSlash comps⟩ ++ "/" ++ name) ⟨name, false⟩ false
      = (some (⟨joinSlash comps⟩, trimSuffix name (filepathExt name)), none) := by
  obtain ⟨n', hn'⟩ : ∃ n', name.data = n' ++ ['.', 'k', 'e', 'y'] := by
    have hm' := hm
    simp only [matchStarKey, Bool.and_eq_true] at hm'
    obtain ⟨t, ht⟩ := List.isSuffixOf_iff_suffix.mp hm'.1
    exact ⟨t, ht.symm⟩
  have hname : name = ⟨n' ++ ['.', 'k', 'e', 'y']⟩ := String.ext hn'
  have htrimname : trimSuffix name (filepathExt name) = ⟨n'⟩ := by
    rw [hname, filepathExt_key, trimSuffix_key]
  have hn'ne : n' ≠ [] := fun h => hnm (by rw [htrimname, h])
  have hn's : '/' ∉ n' := fun hmem =>
    hns (by rw [hn']; exact List.mem_append_left _ hmem)
  have hfp : privDir ++ "/" ++ ⟨joinSlash comps⟩ ++ "/" ++ name
      = ⟨(privDir.data ++ '/' :: (joinSlash comps ++ '/' :: n'))
          ++ ['.', 'k', 'e', 'y']⟩ := by
    apply String.ext
    rw [show (⟨(privDir.data ++ '/' :: (joinSlash comps ++ '/' :: n'))
          ++ ['.', 'k', 'e', 'y']⟩ : String).data
      = (privDir.data ++ '/' :: (joinSlash comps ++ '/' :: n')) ++ ['.', 'k', 'e', 'y']
      from rfl]
    simp [String.data_append, hn', List.append_assoc,
      show (⟨joinSlash comps⟩ : String).data = joinSlash comps from rfl]
  rw [htrimname, hfp, printAllPrivateKeys_match privDir _ name hm,
    filepathExt_key, trimSuffix_key,
    trimPrefix_data_append privDir ('/' :: (joinSlash comps ++ '/' :: n'))]
  rw [show (⟨'/' :: (joinSlash comps ++ '/' :: n')⟩ : String)
      = ⟨('/' :: joinSlash comps) ++ '/' :: n'⟩ from rfl]
  rw [filepathBase_append hn'ne hn's, filepathDir_append hn's]
  rw [show (⟨('/' :: joinSlash comps) ++ ['/']⟩ : String)
      = ⟨'/' :: (joinSlash comps ++ ['/'])⟩ from rfl]
  rw [filepathClean_rooted_dir hcne hplain]
  rfl

/-- **C4 witness.** The amended record theorem instantiated at the
spec's example tree (a one-component parent path). -/
theorem printAllPrivateKeys_record_witness :
    printAllPrivateKeys "root" ("root" ++ "/" ++ "docker.io%2Flibrary%2Falpine" ++ "/"
        ++ "abc123.key") ⟨"abc123.key", false⟩ false
      = (some ("docker.io%2Flibrary%2Falpine",
          trimSuffix "abc123.key" (filepathExt "abc123.key")), none) :=
  printAllPrivateKeys_record "root" ["docker.io%2Flibrary%2Falpine".data] "abc123.key"
    (by decide) (by decide) (by decide) (by decide) (by decide)

/-- **C10 counterexample.** The file named bare `.key` directly in the
private-key root matches `*.key` but falsifies the claimed record: its
basename minus the extension is the empty string, yet the enumerator
reports fingerprint `"/"` (the `Base` of the fully-trimmed path `"/"`),
not `""`. -/
theorem printAllPrivateKeys_dotkey_at_root :
    printAllPrivateKeys "root" "root/.key" ⟨".key", false⟩ false
      = (some ("", "/"), none)
    ∧ matchStarKey ".key" = true
    ∧ trimSuffix ".key" (filepathExt ".key") = ""
    ∧ ("/" : String) ≠ "" :=
  ⟨rfl, by decide, by decide, by decide⟩

/-- **C10 (amended).** A matching key file lying directly in the
private-key root (no GUN subdirectory) still yields a record with GUN
the empty string; its fingerprint is the basename minus the extension
whenever that stem is non-empty, while the stem-less file named bare
`.key` instead gets the fingerprint `"/"`. -/
theorem printAllPrivateKeys_root_level (privDir name : String)
    (hns : '/' ∉ name.data) (hm : matchStarKey name = true) :
    (trimSuffix name (filepathExt name) ≠ "" →
      printAllPrivateKeys privDir (privDir ++ "/" ++ name) ⟨name, false⟩ false
        = (some ("", trimSuffix name (filepathExt name)), none))
    ∧ printAllPrivateKeys privDir (privDir ++ "/" ++ ".key") ⟨".key", false⟩ false
        = (some ("", "/"), none) := by
  constructor
  · intro hnm
    obtain ⟨n', hn'⟩ : ∃ n', name.data = n' ++ ['.', 'k', 'e', 'y'] := by
      have hm' := hm
      simp only [matchStarKey, Bool.and_eq_true] at hm'
      obtain ⟨t, ht⟩ := List.isSuffixOf_iff_suffix.mp hm'.1
      exact ⟨t, ht.symm⟩
    have hname : name = ⟨n' ++ ['.', 'k', 'e', 'y']⟩ := String.ext hn'
    have htrimname : trimSuffix name (filepathExt name) = ⟨n'⟩ := by
      rw [hname, filepathExt_key, trimSuffix_key]
    have hn'ne : n' ≠ [] := fun h => hnm (by rw [htrimname, h])
    have hn's : '/' ∉ n' := fun hmem =>
      hns (by rw [hn']; exact List.mem_append_left _ hmem)
    have hfp : privDir ++ "/" ++ name
        = ⟨(privDir.data ++ '/' :: n') ++ ['.', 'k', 'e', 'y']⟩ := by
      apply String.ext
      rw [show (⟨(privDir.data ++ '/' :: n') ++ ['.', 'k', 'e', 'y']⟩ : String).data
        = (privDir.data ++ '/' :: n') ++ ['.', 'k', 'e', 'y'] from rfl]
      simp [String.data_append, hn', List.append_assoc]
    rw [htrimname, hfp, printAllPrivateKeys_match privDir _ name hm,
      filepathExt_key, trimSuffix_key, trimPrefix_data_append privDir ('/' :: n')]
    rw [show (⟨'/' :: n'⟩ : String) = ⟨([] : List Char) ++ '/' :: n'⟩ from rfl]
    rw [filepathBase_append hn'ne hn's, filepathDir_append hn's]
    rw [show (⟨([] : List Char) ++ ['/']⟩ : String) = ⟨['/']⟩ from rfl,
      filepathClean_single_slash]
    rfl
  · have hfp : privDir ++ "/" ++ ".key"
        = ⟨(privDir.data ++ ['/']) ++ ['.', 'k', 'e', 'y']⟩ := by
      apply String.ext
      rw [show (⟨(privDir.data ++ ['/']) ++ ['.', 'k', 'e', 'y']⟩ : String).data
        = (privDir.data ++ ['/']) ++ ['.', 'k', 'e', 'y'] from rfl]
      simp [String.data_append, List.append_assoc]
    rw [hfp, printAllPrivateKeys_match privDir _ ".key" (by decide),
      filepathExt_key, trimSuffix_key, trimPrefix_data_append privDir ['/']]
    rfl

/-- **C10 witness.** The amended root-level theorem at the concrete tree
`root/abc123.key`: GUN empty, fingerprint `abc123`. -/
theorem printAllPrivateKeys_root_level_witness :
    printAllPrivateKeys "root" ("root" ++ "/" ++ "abc123.key") ⟨"abc123.key", false⟩ false
      = (some ("", trimSuffix "abc123.key" (filepathExt "abc123.key")), none) :=
  (printAllPrivateKeys_root_level "root" "abc123.key" (by decide) (by decide)).1
    (by decide)

end Notary
